import Mathlib

/-!
Verification of the SprigganTS engine specification.

The repository ships a declaration-only API surface (`src/Engine/Api.ts`);
the behavioural models below are therefore built from the design
specification's own words, component by component: the scene-graph tree
with propagated pause/hide/disable/delete flags, the tween engine, the
animation player, the one-shot and recurring timers, the transition
controller, and the persistence surface.
-/

namespace SprigganTS

/-- Modelled from the spec: the missing engine implementation's `SceneNode`,
the unifying abstraction behind `Viewport`/`Group`/`Sprite`/`Background`
(spec section 3): a position in virtual pixels, independently settable
`paused`/`hidden`/`disabled` flags, a `deleted` tombstone, an optional click
callback (represented by a numeric identifier), and an ordered list of
children. -/
inductive SceneNode : Type where
  | mk : ℚ → ℚ → Bool → Bool → Bool → Bool → Option Nat → List SceneNode → SceneNode

/-- The horizontal position of a node, in virtual pixels from its parent. -/
def SceneNode.px : SceneNode → ℚ
  | .mk v _ _ _ _ _ _ _ => v

/-- The vertical position of a node, in virtual pixels from its parent. -/
def SceneNode.py : SceneNode → ℚ
  | .mk _ v _ _ _ _ _ _ => v

/-- The node's own paused flag. -/
def SceneNode.paused : SceneNode → Bool
  | .mk _ _ v _ _ _ _ _ => v

/-- The node's own hidden flag. -/
def SceneNode.hidden : SceneNode → Bool
  | .mk _ _ _ v _ _ _ _ => v

/-- The node's own disabled flag. -/
def SceneNode.disabled : SceneNode → Bool
  | .mk _ _ _ _ v _ _ _ => v

/-- The node's deletion tombstone. -/
def SceneNode.deleted : SceneNode → Bool
  | .mk _ _ _ _ _ v _ _ => v

/-- The node's optional click-callback identifier. -/
def SceneNode.clickId : SceneNode → Option Nat
  | .mk _ _ _ _ _ _ v _ => v

/-- The node's ordered children (insertion order is paint and hit-test order). -/
def SceneNode.children : SceneNode → List SceneNode
  | .mk _ _ _ _ _ _ _ v => v

/-- Replace a node's children, keeping every other field. -/
def SceneNode.withChildren : SceneNode → List SceneNode → SceneNode
  | .mk a b c d e f g _, cs => .mk a b c d e f g cs

/-- Set the node's own hidden flag. -/
def SceneNode.withHidden (v : Bool) : SceneNode → SceneNode
  | .mk a b c _ e f g cs => .mk a b c v e f g cs

/-- Set the node's own paused flag. -/
def SceneNode.withPaused (v : Bool) : SceneNode → SceneNode
  | .mk a b _ d e f g cs => .mk a b v d e f g cs

/-- Set the node's own disabled flag. -/
def SceneNode.withDisabled (v : Bool) : SceneNode → SceneNode
  | .mk a b c d _ f g cs => .mk a b c d v f g cs

/-- Set the node's deletion tombstone. -/
def SceneNode.withDeleted (v : Bool) : SceneNode → SceneNode
  | .mk a b c d e _ g cs => .mk a b c d e v g cs

/-- Set the node's position immediately. -/
def SceneNode.withPos (x y : ℚ) : SceneNode → SceneNode
  | .mk _ _ c d e f g cs => .mk x y c d e f g cs

/-- Replace the child at an index, leaving the list unchanged when the index
is out of range. -/
def updateChild : List SceneNode → Nat → (SceneNode → SceneNode) → List SceneNode
  | [], _, _ => []
  | c :: cs, 0, f => f c :: cs
  | c :: cs, i + 1, f => c :: updateChild cs i f

/-- Look a node up by its path of child indices from the given root. -/
def getNode : SceneNode → List Nat → Option SceneNode
  | n, [] => some n
  | n, i :: p =>
    match n.children[i]? with
    | some c => getNode c p
    | none => none

/-- Apply a node-local update at the end of a path, leaving the tree unchanged
when the path does not exist. -/
def modifyAt (f : SceneNode → SceneNode) : SceneNode → List Nat → SceneNode
  | n, [] => f n
  | n, i :: p => n.withChildren (updateChild n.children i (fun c => modifyAt f c p))

/-- Modelled from the spec: the missing engine's on-demand effective-state
computation (spec section 4.2) — the effective value of a propagated flag at
a node is the logical OR of the flag over the node itself and all its
ancestors, recomputed along the path during traversal; `none` when the path
does not exist. -/
def effFlagAt (proj : SceneNode → Bool) : SceneNode → List Nat → Option Bool
  | n, [] => some (proj n)
  | n, i :: p =>
    match n.children[i]? with
    | some c => (effFlagAt proj c p).map (fun b => proj n || b)
    | none => none

/-- Effective hidden state of the node at a path. -/
def effHiddenAt (g : SceneNode) (p : List Nat) : Option Bool :=
  effFlagAt SceneNode.hidden g p

/-- Effective disabled state of the node at a path. -/
def effDisabledAt (g : SceneNode) (p : List Nat) : Option Bool :=
  effFlagAt SceneNode.disabled g p

/-- Effective deleted state of the node at a path: a node is effectively
deleted when it or any ancestor carries the tombstone. -/
def effDeletedAt (g : SceneNode) (p : List Nat) : Option Bool :=
  effFlagAt SceneNode.deleted g p

/-- Modelled from the spec: the missing `Hide`/`Show` implementation —
a flag toggle mutates only the target node's own flag (spec section 4.2). -/
def setHiddenAt (g : SceneNode) (p : List Nat) (v : Bool) : SceneNode :=
  modifyAt (SceneNode.withHidden v) g p

/-- Modelled from the spec: a node participates in graph walks exactly when
its path exists and no node along it is tombstoned (spec section 3,
`deleted`). -/
def reachableAt (g : SceneNode) (p : List Nat) : Prop :=
  effDeletedAt g p = some false

instance (g : SceneNode) (p : List Nat) : Decidable (reachableAt g p) := by
  unfold reachableAt; infer_instance

/-- Modelled from the spec: a node is rendered exactly when it is reachable
and effectively visible (spec section 3, invariants for `hidden`). -/
def renderedAt (g : SceneNode) (p : List Nat) : Prop :=
  reachableAt g p ∧ effHiddenAt g p = some false

instance (g : SceneNode) (p : List Nat) : Decidable (renderedAt g p) := by
  unfold renderedAt; infer_instance

/-- Modelled from the spec: a node is hit-testable exactly when it is
reachable and effectively visible — effectively-hidden nodes "are not
rendered and do not participate in hit-testing or occlusion". -/
def hitTestableAt (g : SceneNode) (p : List Nat) : Prop :=
  reachableAt g p ∧ effHiddenAt g p = some false

instance (g : SceneNode) (p : List Nat) : Decidable (hitTestableAt g p) := by
  unfold hitTestableAt; infer_instance

/-- Modelled from the spec: the click callback a dispatched click at a node
would invoke — present only when the node is hit-testable and effectively
enabled ("effectively-disabled nodes do not receive click callbacks"). -/
def clickTargetAt (g : SceneNode) (p : List Nat) : Option Nat :=
  if hitTestableAt g p ∧ effDisabledAt g p = some false then
    (getNode g p).bind SceneNode.clickId
  else
    none

@[simp]
theorem children_withChildren (n : SceneNode) (cs : List SceneNode) :
    (n.withChildren cs).children = cs := by
  cases n; rfl

@[simp]
theorem hidden_withChildren (n : SceneNode) (cs : List SceneNode) :
    (n.withChildren cs).hidden = n.hidden := by
  cases n; rfl

@[simp]
theorem deleted_withChildren (n : SceneNode) (cs : List SceneNode) :
    (n.withChildren cs).deleted = n.deleted := by
  cases n; rfl

@[simp]
theorem children_withHidden (v : Bool) (n : SceneNode) :
    (SceneNode.withHidden v n).children = n.children := by
  cases n; rfl

@[simp]
theorem hidden_withHidden (v : Bool) (n : SceneNode) :
    (SceneNode.withHidden v n).hidden = v := by
  cases n; rfl

@[simp]
theorem children_withDeleted (v : Bool) (n : SceneNode) :
    (SceneNode.withDeleted v n).children = n.children := by
  cases n; rfl

@[simp]
theorem deleted_withDeleted (v : Bool) (n : SceneNode) :
    (SceneNode.withDeleted v n).deleted = v := by
  cases n; rfl

theorem updateChild_getElem (cs : List SceneNode) (i j : Nat) (f : SceneNode → SceneNode) :
    (updateChild cs i f)[j]? = if i = j then (cs[j]?).map f else cs[j]? := by
  induction cs generalizing i j with
  | nil => simp [updateChild]
  | cons c cs ih =>
    cases i with
    | zero =>
      cases j with
      | zero => simp [updateChild]
      | succ j => simp [updateChild]
    | succ i =>
      cases j with
      | zero => simp [updateChild]
      | succ j => simpa [updateChild] using ih i j

theorem getNode_modifyAt_self (f : SceneNode → SceneNode) (g : SceneNode) (p : List Nat) :
    getNode (modifyAt f g p) p = (getNode g p).map f := by
  induction p generalizing g with
  | nil => rfl
  | cons i p ih =>
    simp only [modifyAt, getNode, children_withChildren, updateChild_getElem, if_pos rfl]
    cases h : g.children[i]? with
    | none => simp
    | some c => simp [ih]

theorem getNode_modifyAt_isSome (f : SceneNode → SceneNode)
    (hf : ∀ n, (f n).children = n.children)
    (g : SceneNode) (p q : List Nat) :
    (getNode (modifyAt f g p) q).isSome = (getNode g q).isSome := by
  induction q generalizing g p with
  | nil => cases p <;> rfl
  | cons j q ih =>
    cases p with
    | nil => simp only [modifyAt, getNode, hf]
    | cons i p =>
      simp only [modifyAt, getNode, children_withChildren, updateChild_getElem]
      by_cases hij : i = j
      · subst hij
        simp only [if_pos rfl]
        cases h : g.children[i]? with
        | none => simp
        | some c => simp [ih]
      · simp [hij]

theorem flagAt_modifyAt_ne (f : SceneNode → SceneNode) (proj : SceneNode → Bool)
    (hf : ∀ n, (f n).children = n.children)
    (hproj : ∀ n cs, proj (n.withChildren cs) = proj n)
    (g : SceneNode) (p q : List Nat) (hne : p ≠ q) :
    (getNode (modifyAt f g p) q).map proj = (getNode g q).map proj := by
  induction q generalizing g p with
  | nil =>
    cases p with
    | nil => exact absurd rfl hne
    | cons i p => simp [modifyAt, getNode, hproj]
  | cons j q ih =>
    cases p with
    | nil => simp only [modifyAt, getNode, hf]
    | cons i p =>
      simp only [modifyAt, getNode, children_withChildren, updateChild_getElem]
      by_cases hij : i = j
      · subst hij
        simp only [if_pos rfl]
        cases h : g.children[i]? with
        | none => simp
        | some c =>
          have hpq : p ≠ q := by
            intro hcontra; exact hne (by rw [hcontra])
          simp [ih c p hpq]
      · simp [hij]

theorem effFlagAt_isSome (proj : SceneNode → Bool) (g : SceneNode) (p : List Nat) :
    (effFlagAt proj g p).isSome = (getNode g p).isSome := by
  induction p generalizing g with
  | nil => rfl
  | cons i p ih =>
    simp only [effFlagAt, getNode]
    cases g.children[i]? with
    | none => rfl
    | some c => simp [ih]

theorem effFlagAt_of_root_flag (proj : SceneNode → Bool) (g : SceneNode) (p : List Nat)
    (m : SceneNode) (hm : getNode g p = some m) (hflag : proj g = true) :
    effFlagAt proj g p = some true := by
  induction p generalizing g with
  | nil => simpa [effFlagAt] using hflag
  | cons i p ih =>
    cases h : g.children[i]? with
    | none => simp [getNode, h] at hm
    | some c =>
      simp only [getNode, h] at hm
      have hs : (effFlagAt proj c p).isSome = true := by
        rw [effFlagAt_isSome, hm]; rfl
      cases hb : effFlagAt proj c p with
      | none => simp [hb] at hs
      | some b => simp [effFlagAt, h, hb, hflag]

theorem effFlagAt_of_own_flag (proj : SceneNode → Bool) (g : SceneNode) (p : List Nat)
    (m : SceneNode) (hm : getNode g p = some m) (hflag : proj m = true) :
    effFlagAt proj g p = some true := by
  induction p generalizing g with
  | nil =>
    simp only [getNode, Option.some.injEq] at hm
    subst hm
    simpa [effFlagAt] using hflag
  | cons i p ih =>
    cases h : g.children[i]? with
    | none => simp [getNode, h] at hm
    | some c =>
      simp only [getNode, h] at hm
      simp [effFlagAt, h, ih c hm]

theorem effFlagAt_ancestor (proj : SceneNode → Bool) (g : SceneNode) (q r : List Nat)
    (m : SceneNode) (hm : getNode g (q ++ r) = some m)
    (hq : effFlagAt proj g q = some true) :
    effFlagAt proj g (q ++ r) = some true := by
  induction q generalizing g with
  | nil =>
    simp only [effFlagAt, Option.some.injEq] at hq
    exact effFlagAt_of_root_flag proj g r m hm hq
  | cons j q ih =>
    cases h : g.children[j]? with
    | none => simp [List.cons_append, getNode, h] at hm
    | some c =>
      simp only [List.cons_append, getNode, h, List.append_eq] at hm
      simp only [effFlagAt, h] at hq
      cases hb : effFlagAt proj c q with
      | none => simp [hb] at hq
      | some b =>
        simp only [hb] at hq
        simp at hq
        rcases hq with hroot | hsub
        · have hs : (effFlagAt proj c (q ++ r)).isSome = true := by
            rw [effFlagAt_isSome, hm]; rfl
          cases hb2 : effFlagAt proj c (q ++ r) with
          | none => simp [hb2] at hs
          | some b2 => simp [effFlagAt, List.cons_append, h, hb2, hroot]
        · subst hsub
          have hres := ih c hm hb
          simp [effFlagAt, List.cons_append, h, hres]

theorem effFlagAt_false_own (proj : SceneNode → Bool) (g : SceneNode) (p : List Nat)
    (h : effFlagAt proj g p = some false) :
    (getNode g p).map proj = some false := by
  induction p generalizing g with
  | nil => simpa [effFlagAt, getNode] using h
  | cons i p ih =>
    cases hc : g.children[i]? with
    | none => simp [effFlagAt, hc] at h
    | some c =>
      simp only [effFlagAt, hc] at h
      cases hb : effFlagAt proj c p with
      | none => simp [hb] at h
      | some b =>
        simp only [hb] at h
        simp at h
        have hsub : effFlagAt proj c p = some false := by rw [hb, h.2]
        simpa [getNode, hc] using ih c hsub

theorem effFlagAt_false_prefix (proj : SceneNode → Bool) (g : SceneNode) (q r : List Nat)
    (h : effFlagAt proj g (q ++ r) = some false) :
    effFlagAt proj g q = some false := by
  induction q generalizing g with
  | nil =>
    cases r with
    | nil => simpa using h
    | cons i r =>
      cases hc : g.children[i]? with
      | none => simp [List.nil_append, effFlagAt, hc] at h
      | some c =>
        simp only [List.nil_append, effFlagAt, hc] at h
        cases hb : effFlagAt proj c r with
        | none => simp [hb] at h
        | some b =>
          simp only [hb] at h
          simp at h
          simp [effFlagAt, h.1]
  | cons j q ih =>
    cases hc : g.children[j]? with
    | none => simp [List.cons_append, effFlagAt, hc] at h
    | some c =>
      simp only [List.cons_append, effFlagAt, hc, List.append_eq] at h
      cases hb : effFlagAt proj c (q ++ r) with
      | none => simp [hb] at h
      | some b =>
        simp only [hb] at h
        simp at h
        have hsub : effFlagAt proj c (q ++ r) = some false := by rw [hb, h.2]
        have hres := ih c hsub
        simp [effFlagAt, hc, hres, h.1]

theorem effFlagAt_modifyAt_deep (f : SceneNode → SceneNode) (proj : SceneNode → Bool)
    (hproj : ∀ n cs, proj (n.withChildren cs) = proj n)
    (g : SceneNode) (q : List Nat) (j : Nat) (r : List Nat) :
    effFlagAt proj (modifyAt f g (q ++ j :: r)) q = effFlagAt proj g q := by
  induction q generalizing g with
  | nil => simp [effFlagAt, modifyAt, hproj]
  | cons k q ih =>
    simp only [List.cons_append, modifyAt, effFlagAt, children_withChildren,
      updateChild_getElem, hproj, if_pos rfl]
    cases h : g.children[k]? with
    | none => simp
    | some c => simp [ih]

/-- C1: for every node N (at path `q ++ j :: r`) with ancestor A (at path
`q`), the effective hidden state of N is the logical OR of N's own flag and
its ancestors' flags (own flag set forces it, any ancestor flag set forces
it, and it is clear only when both are clear); `Show` on N clears only N's
own flag, leaving A's flag untouched; after `A.Hide()` the node N is not
rendered and not hit-testable (and receives no click) even if `N.Show()`
was called afterwards; and `A.Show()` reveals N only if N's own hidden flag
is clear — if N's own flag is set, N stays effectively hidden. -/
theorem c1_effective_state_is_ancestor_or (g : SceneNode) (q : List Nat) (j : Nat)
    (r : List Nat) (nA nN : SceneNode)
    (hA : getNode g q = some nA) (hN : getNode g (q ++ j :: r) = some nN) :
    (nN.hidden = true → effHiddenAt g (q ++ j :: r) = some true) ∧
    (nA.hidden = true → effHiddenAt g (q ++ j :: r) = some true) ∧
    (effHiddenAt g (q ++ j :: r) = some false → nN.hidden = false ∧ nA.hidden = false) ∧
    (getNode (setHiddenAt g (q ++ j :: r) false) (q ++ j :: r)).map SceneNode.hidden
      = some false ∧
    (getNode (setHiddenAt g (q ++ j :: r) false) q).map SceneNode.hidden
      = some nA.hidden ∧
    effHiddenAt (setHiddenAt (setHiddenAt g q true) (q ++ j :: r) false) (q ++ j :: r)
      = some true ∧
    ¬ renderedAt (setHiddenAt (setHiddenAt g q true) (q ++ j :: r) false) (q ++ j :: r) ∧
    ¬ hitTestableAt (setHiddenAt (setHiddenAt g q true) (q ++ j :: r) false)
      (q ++ j :: r) ∧
    clickTargetAt (setHiddenAt (setHiddenAt g q true) (q ++ j :: r) false) (q ++ j :: r)
      = none ∧
    (nN.hidden = true →
      effHiddenAt (setHiddenAt g q false) (q ++ j :: r) = some true) := by
  have hne1 : (q ++ j :: r) ≠ q := by
    intro hcontra
    have hlen := congrArg List.length hcontra
    simp at hlen
  have hne2 : q ≠ (q ++ j :: r) := fun hcontra => hne1 hcontra.symm
  have e1 : getNode (modifyAt (SceneNode.withHidden true) g q) q
      = some (SceneNode.withHidden true nA) := by
    rw [getNode_modifyAt_self, hA]
    rfl
  have e2 : (getNode (setHiddenAt (setHiddenAt g q true) (q ++ j :: r) false) q).map
      SceneNode.hidden = some true := by
    simp only [setHiddenAt]
    rw [flagAt_modifyAt_ne _ _ (children_withHidden false) hidden_withChildren _ _ q hne1]
    rw [e1]
    simp
  obtain ⟨m2, hm2⟩ : ∃ m2,
      getNode (setHiddenAt (setHiddenAt g q true) (q ++ j :: r) false) q = some m2 := by
    cases hm : getNode (setHiddenAt (setHiddenAt g q true) (q ++ j :: r) false) q with
    | none => rw [hm] at e2; simp at e2
    | some m => exact ⟨m, rfl⟩
  have hm2h : m2.hidden = true := by
    rw [hm2] at e2
    simpa using e2
  have e4 : effHiddenAt (setHiddenAt (setHiddenAt g q true) (q ++ j :: r) false) q
      = some true :=
    effFlagAt_of_own_flag _ _ q m2 hm2 hm2h
  have e5 : (getNode (setHiddenAt (setHiddenAt g q true) (q ++ j :: r) false)
      (q ++ j :: r)).isSome = true := by
    simp only [setHiddenAt]
    rw [getNode_modifyAt_isSome _ (children_withHidden false),
      getNode_modifyAt_isSome _ (children_withHidden true), hN]
    rfl
  obtain ⟨m3, hm3⟩ : ∃ m3,
      getNode (setHiddenAt (setHiddenAt g q true) (q ++ j :: r) false) (q ++ j :: r)
        = some m3 := by
    cases hm : getNode (setHiddenAt (setHiddenAt g q true) (q ++ j :: r) false)
        (q ++ j :: r) with
    | none => rw [hm] at e5; simp at e5
    | some m => exact ⟨m, rfl⟩
  have e6 : effHiddenAt (setHiddenAt (setHiddenAt g q true) (q ++ j :: r) false)
      (q ++ j :: r) = some true :=
    effFlagAt_ancestor _ _ q (j :: r) m3 hm3 e4
  refine ⟨?_, ?_, ?_, ?_, ?_, e6, ?_, ?_, ?_, ?_⟩
  · intro h
    exact effFlagAt_of_own_flag _ g _ nN hN h
  · intro h
    exact effFlagAt_ancestor _ g q (j :: r) nN hN (effFlagAt_of_own_flag _ g q nA hA h)
  · intro h
    constructor
    · have h1 := effFlagAt_false_own _ g _ h
      rw [hN] at h1
      simpa using h1
    · have h2 := effFlagAt_false_prefix _ g q (j :: r) h
      have h3 := effFlagAt_false_own _ g q h2
      rw [hA] at h3
      simpa using h3
  · simp only [setHiddenAt]
    rw [getNode_modifyAt_self, hN]
    simp
  · simp only [setHiddenAt]
    rw [flagAt_modifyAt_ne _ _ (children_withHidden false) hidden_withChildren _ _ q hne1,
      hA]
    simp
  · simp [renderedAt, e6]
  · simp [hitTestableAt, e6]
  · simp [clickTargetAt, hitTestableAt, e6]
  · intro hNh
    have f1 : (getNode (setHiddenAt g q false) (q ++ j :: r)).map SceneNode.hidden
        = some true := by
      simp only [setHiddenAt]
      rw [flagAt_modifyAt_ne _ _ (children_withHidden false) hidden_withChildren
        _ _ _ hne2, hN]
      simp [hNh]
    obtain ⟨m4, hm4⟩ : ∃ m4, getNode (setHiddenAt g q false) (q ++ j :: r) = some m4 := by
      cases hm : getNode (setHiddenAt g q false) (q ++ j :: r) with
      | none => rw [hm] at f1; simp at f1
      | some m => exact ⟨m, rfl⟩
    have hm4h : m4.hidden = true := by
      rw [hm4] at f1
      simpa using f1
    exact effFlagAt_of_own_flag _ _ _ m4 hm4 hm4h

/-- A concrete two-node scene: a root with one child carrying a click
callback, used to instantiate the propagation theorem. -/
def sampleChild : SceneNode :=
  .mk 0 0 false false false false (some 5) []

/-- A concrete root node holding `sampleChild`. -/
def sampleRoot : SceneNode :=
  .mk 0 0 false false false false none [sampleChild]

/-- Witness for C1 at a concrete two-node scene graph: hiding the root and
then showing the child leaves the child effectively hidden. -/
theorem c1_effective_state_is_ancestor_or_witness :
    effHiddenAt (setHiddenAt (setHiddenAt sampleRoot [] true) ([] ++ 0 :: []) false)
      ([] ++ 0 :: []) = some true :=
  (c1_effective_state_is_ancestor_or sampleRoot [] 0 [] sampleRoot sampleChild rfl
    rfl).2.2.2.2.2.1

/-- Modelled from the spec: the missing Tween Engine's in-flight motion
record (spec section 3, `Tween`): start position, target position, elapsed
time, total duration, and the `onArrival` callback represented by a numeric
identifier. -/
structure Tween (K : Type) where
  startX : K
  startY : K
  targetX : K
  targetY : K
  elapsed : K
  duration : K
  cbId : Nat

/-- Modelled from the spec: the motion-related state of one scene object
(`Viewport`/`Group`/`Sprite`/`Background` all share `Move`/`MoveOver`/
`MoveAt`): current position, effective-paused flag, the at-most-one active
tween, and the ordered log of arrival callbacks that have fired. -/
structure MotionNode (K : Type) where
  x : K
  y : K
  paused : Bool
  motion : Option (Tween K)
  fired : List Nat

/-- Modelled from the spec: one frame tick of the Tween Engine for a single
node (spec sections 4.1 and 4.3): an effectively-paused node does not
advance; otherwise elapsed accumulates, progress is `min(1, elapsed/duration)`
with linear interpolation, and when progress reaches 1 on this tick the node
lands exactly on the target, the tween is cleared, and `onArrival` fires. -/
def MotionNode.tick {K : Type} [LinearOrderedField K] (n : MotionNode K) (d : K) :
    MotionNode K :=
  if n.paused then n else
  match n.motion with
  | none => n
  | some t =>
    if t.duration ≤ t.elapsed + d then
      { n with
        x := t.targetX
        y := t.targetY
        motion := none
        fired := n.fired ++ [t.cbId] }
    else
      { n with
        x := t.startX + (t.targetX - t.startX) * ((t.elapsed + d) / t.duration)
        y := t.startY + (t.targetY - t.startY) * ((t.elapsed + d) / t.duration)
        motion := some { t with elapsed := t.elapsed + d } }

/-- Tick a node through a whole sequence of frame deltas, in order. -/
def MotionNode.run {K : Type} [LinearOrderedField K] (n : MotionNode K)
    (ds : List K) : MotionNode K :=
  ds.foldl MotionNode.tick n

/-- Modelled from the spec: `Move` sets the position immediately and cancels
any active tween without firing its callback (spec section 4.3). -/
def MotionNode.Move {K : Type} (n : MotionNode K) (x y : K) : MotionNode K :=
  { n with x := x, y := y, motion := none }

/-- Modelled from the spec: `MoveOver` starts a fixed-duration tween from the
current position, replacing any active tween without firing its callback. -/
def MotionNode.MoveOver {K : Type} [LinearOrderedField K] (n : MotionNode K)
    (x y d : K) (cb : Nat) : MotionNode K :=
  { n with motion := some ⟨n.x, n.y, x, y, 0, d, cb⟩ }

/-- Modelled from the spec: `MoveAt` derives its duration exactly once at
creation as `distance(start, target) / pixelsPerSecond` — clamped to an
immediate (zero-duration) tween when the speed is not positive — and
thereafter behaves identically to a fixed-duration tween. -/
def MotionNode.MoveAt {K : Type} [LinearOrderedField K]
    (dist : K → K → K → K → K) (n : MotionNode K) (x y s : K) (cb : Nat) :
    MotionNode K :=
  n.MoveOver x y (if s ≤ 0 then 0 else dist n.x n.y x y / s) cb

/-- Modelled from the spec: Euclidean distance between two points, used by
`MoveAt` (spec section 4.3, "distance(start,target)"). -/
noncomputable def euclidDist (x1 y1 x2 y2 : ℝ) : ℝ :=
  Real.sqrt ((x2 - x1) ^ 2 + (y2 - y1) ^ 2)

/-- The mid-flight state of a fixed-duration tween after `s` seconds. -/
def MotionNode.midState {K : Type} [LinearOrderedField K] (n0 : MotionNode K)
    (x y d : K) (cb : Nat) (s : K) : MotionNode K :=
  { x := n0.x + (x - n0.x) * (s / d)
    y := n0.y + (y - n0.y) * (s / d)
    paused := false
    motion := some ⟨n0.x, n0.y, x, y, s, d, cb⟩
    fired := n0.fired }

/-- The state of a node after its tween arrived and the callback fired. -/
def MotionNode.doneState {K : Type} (n0 : MotionNode K) (x y : K) (cb : Nat) :
    MotionNode K :=
  { x := x
    y := y
    paused := false
    motion := none
    fired := n0.fired ++ [cb] }

theorem MotionNode.run_done {K : Type} [LinearOrderedField K] (n0 : MotionNode K)
    (x y : K) (cb : Nat) (ds : List K) :
    (MotionNode.doneState n0 x y cb).run ds = MotionNode.doneState n0 x y cb := by
  induction ds with
  | nil => rfl
  | cons d ds ih => simpa [MotionNode.run, MotionNode.tick, MotionNode.doneState] using ih

theorem MotionNode.tick_mid_complete {K : Type} [LinearOrderedField K]
    (n0 : MotionNode K) (x y d : K) (cb : Nat) (s t : K) (h : d ≤ s + t) :
    (MotionNode.midState n0 x y d cb s).tick t = MotionNode.doneState n0 x y cb := by
  simp [MotionNode.tick, MotionNode.midState, MotionNode.doneState, h]

theorem MotionNode.tick_mid_partial {K : Type} [LinearOrderedField K]
    (n0 : MotionNode K) (x y d : K) (cb : Nat) (s t : K) (h : s + t < d) :
    (MotionNode.midState n0 x y d cb s).tick t
      = MotionNode.midState n0 x y d cb (s + t) := by
  simp [MotionNode.tick, MotionNode.midState, not_le.mpr h]

theorem MotionNode.run_mid_complete {K : Type} [LinearOrderedField K]
    (n0 : MotionNode K) (x y d : K) (cb : Nat) (ds : List K) :
    ∀ s : K, (∀ t ∈ ds, 0 ≤ t) → s < d → s + ds.sum = d →
      (MotionNode.midState n0 x y d cb s).run ds = MotionNode.doneState n0 x y cb := by
  induction ds with
  | nil =>
    intro s _ hlt hsum
    simp at hsum
    exact absurd hsum (ne_of_lt hlt)
  | cons t ds ih =>
    intro s hnn hlt hsum
    simp only [List.sum_cons] at hsum
    by_cases hc : d ≤ s + t
    · have hge : 0 ≤ ds.sum := List.sum_nonneg (fun u hu => hnn u (by simp [hu]))
      have hst : s + t = d := by linarith
      have hds : ds.sum = 0 := by linarith
      simp only [MotionNode.run, List.foldl_cons]
      rw [show List.foldl MotionNode.tick ((MotionNode.midState n0 x y d cb s).tick t) ds
        = ((MotionNode.midState n0 x y d cb s).tick t).run ds from rfl]
      rw [MotionNode.tick_mid_complete n0 x y d cb s t hc]
      exact MotionNode.run_done n0 x y cb ds
    · push_neg at hc
      simp only [MotionNode.run, List.foldl_cons]
      rw [show List.foldl MotionNode.tick ((MotionNode.midState n0 x y d cb s).tick t) ds
        = ((MotionNode.midState n0 x y d cb s).tick t).run ds from rfl]
      rw [MotionNode.tick_mid_partial n0 x y d cb s t hc]
      exact ih (s + t) (fun u hu => hnn u (by simp [hu])) hc (by linarith)

theorem MotionNode.run_mid_partial {K : Type} [LinearOrderedField K]
    (n0 : MotionNode K) (x y d : K) (cb : Nat) (ds : List K) :
    ∀ s : K, (∀ t ∈ ds, 0 ≤ t) → s + ds.sum < d →
      (MotionNode.midState n0 x y d cb s).run ds
        = MotionNode.midState n0 x y d cb (s + ds.sum) := by
  induction ds with
  | nil =>
    intro s _ _
    simp [MotionNode.run]
  | cons t ds ih =>
    intro s hnn hlt
    simp only [List.sum_cons] at hlt
    have hge : 0 ≤ ds.sum := List.sum_nonneg (fun u hu => hnn u (by simp [hu]))
    have hc : s + t < d := by linarith
    simp only [MotionNode.run, List.foldl_cons]
    rw [show List.foldl MotionNode.tick ((MotionNode.midState n0 x y d cb s).tick t) ds
      = ((MotionNode.midState n0 x y d cb s).tick t).run ds from rfl]
    rw [MotionNode.tick_mid_partial n0 x y d cb s t hc]
    have hrun := ih (s + t) (fun u hu => hnn u (by simp [hu])) (by linarith)
    rw [hrun]
    exact congrArg (MotionNode.midState n0 x y d cb) (by rw [List.sum_cons]; ring)

theorem MotionNode.moveOver_eq_mid {K : Type} [LinearOrderedField K]
    (n0 : MotionNode K) (x y d : K) (cb : Nat) (hp : n0.paused = false) :
    n0.MoveOver x y d cb = MotionNode.midState n0 x y d cb 0 := by
  simp [MotionNode.MoveOver, MotionNode.midState, hp]

/-- C2: for every node, start and target position, duration `d > 0`, and
finite sequence of nonnegative tick deltas summing exactly to `d`, after
`MoveOver(x, y, d, onArrival)` and ticking through the sequence (node never
effectively paused), the final position is exactly `(x, y)` and `onArrival`
has fired exactly once, independent of the partition of `d` into ticks;
every proper prefix of the ticks leaves the node at the linear interpolation
of progress `elapsed/d` with the callback not yet fired. -/
theorem c2_tween_sum_of_deltas_invariance {K : Type} [LinearOrderedField K]
    (n0 : MotionNode K) (x y d : K) (cb : Nat) (ds : List K)
    (hp : n0.paused = false) (hd : 0 < d) (hnn : ∀ t ∈ ds, 0 ≤ t)
    (hsum : ds.sum = d) :
    ((n0.MoveOver x y d cb).run ds).x = x ∧
    ((n0.MoveOver x y d cb).run ds).y = y ∧
    ((n0.MoveOver x y d cb).run ds).fired = n0.fired ++ [cb] ∧
    ∀ pre suf, ds = pre ++ suf → pre.sum < d →
      ((n0.MoveOver x y d cb).run pre).x = n0.x + (x - n0.x) * (pre.sum / d) ∧
      ((n0.MoveOver x y d cb).run pre).y = n0.y + (y - n0.y) * (pre.sum / d) ∧
      ((n0.MoveOver x y d cb).run pre).fired = n0.fired := by
  have hmain : (n0.MoveOver x y d cb).run ds = MotionNode.doneState n0 x y cb := by
    rw [MotionNode.moveOver_eq_mid n0 x y d cb hp]
    exact MotionNode.run_mid_complete n0 x y d cb ds 0 hnn hd (by simpa using hsum)
  refine ⟨by rw [hmain]; rfl, by rw [hmain]; rfl, by rw [hmain]; rfl, ?_⟩
  intro pre suf hds hpre
  have hnn2 : ∀ t ∈ pre, 0 ≤ t := fun t ht =>
    hnn t (by rw [hds]; exact List.mem_append_left _ ht)
  have hmid : (n0.MoveOver x y d cb).run pre
      = MotionNode.midState n0 x y d cb (0 + pre.sum) := by
    rw [MotionNode.moveOver_eq_mid n0 x y d cb hp]
    exact MotionNode.run_mid_partial n0 x y d cb pre 0 hnn2 (by simpa using hpre)
  rw [hmid]
  simp [MotionNode.midState]

/-- A concrete unpaused node at the origin with no history, over `ℚ`. -/
def moverQ : MotionNode ℚ :=
  ⟨0, 0, false, none, []⟩

/-- Witness for C2 at a concrete run: `MoveOver (10, 20)` over 4 seconds
ticked as `[1, 1, 2]` lands exactly on the target with the callback fired
exactly once. -/
theorem c2_tween_sum_of_deltas_invariance_witness :
    ((moverQ.MoveOver 10 20 4 7).run [1, 1, 2]).x = 10 ∧
    ((moverQ.MoveOver 10 20 4 7).run [1, 1, 2]).fired = [7] := by
  have h := c2_tween_sum_of_deltas_invariance moverQ 10 20 4 7 [1, 1, 2] rfl
    (by norm_num) (by decide) (by norm_num)
  exact ⟨h.1, by simpa using h.2.2.1⟩

/-- Modelled from the spec: a motion command issued on a node —
`Move` (immediate), `MoveOver` (fixed duration), or `MoveAt` (fixed rate). -/
inductive MoveCmd (K : Type) where
  | move (x y : K)
  | moveOver (x y d : K) (cb : Nat)
  | moveAt (x y s : K) (cb : Nat)

/-- The arrival-callback identifier a motion command carries, if any. -/
def MoveCmd.cbOf {K : Type} : MoveCmd K → Option Nat
  | .move _ _ => none
  | .moveOver _ _ _ cb => some cb
  | .moveAt _ _ _ cb => some cb

/-- Apply a motion command to a node. -/
def MotionNode.applyCmd {K : Type} [LinearOrderedField K]
    (dist : K → K → K → K → K) (n : MotionNode K) : MoveCmd K → MotionNode K
  | .move x y => n.Move x y
  | .moveOver x y d cb => n.MoveOver x y d cb
  | .moveAt x y s cb => n.MoveAt dist x y s cb

theorem MotionNode.tick_preserves_notin {K : Type} [LinearOrderedField K]
    (c : Nat) (n : MotionNode K) (d : K)
    (h1 : c ∉ n.fired) (h2 : ∀ t, n.motion = some t → t.cbId ≠ c) :
    c ∉ (n.tick d).fired ∧ ∀ t, (n.tick d).motion = some t → t.cbId ≠ c := by
  unfold MotionNode.tick
  cases hp : n.paused with
  | true => simp only [if_true]; exact ⟨h1, h2⟩
  | false =>
    simp only [Bool.false_eq_true, if_false]
    cases hm : n.motion with
    | none => exact ⟨h1, h2⟩
    | some t =>
      by_cases hc : t.duration ≤ t.elapsed + d
      · simp only [hc, if_true]
        constructor
        · intro hmem
          rcases List.mem_append.mp hmem with hin | hin
          · exact h1 hin
          · exact h2 t hm (List.mem_singleton.mp hin).symm
        · intro t' ht'
          simp at ht'
      · simp only [hc, if_false]
        refine ⟨h1, ?_⟩
        intro t' ht'
        simp only [Option.some.injEq] at ht'
        rw [← ht']
        exact h2 t hm

theorem MotionNode.run_notin {K : Type} [LinearOrderedField K] (c : Nat)
    (ds : List K) : ∀ n : MotionNode K, c ∉ n.fired →
    (∀ t, n.motion = some t → t.cbId ≠ c) → c ∉ (n.run ds).fired := by
  induction ds with
  | nil => intro n h1 _; exact h1
  | cons d ds ih =>
    intro n h1 h2
    have hstep := MotionNode.tick_preserves_notin c n d h1 h2
    exact ih (n.tick d) hstep.1 hstep.2

/-- C3: for every node with an active tween whose `onArrival` callback has
not yet fired, issuing any second `Move`, `MoveOver`, or `MoveAt` (carrying a
different callback) replaces the tween, and the first tween's callback is
never invoked in any subsequent sequence of ticks. -/
theorem c3_interruption_never_fires_old_callback {K : Type} [LinearOrderedField K]
    (dist : K → K → K → K → K) (n : MotionNode K) (t : Tween K) (c : Nat)
    (hactive : n.motion = some t) (hcb : t.cbId = c) (hnot : c ∉ n.fired)
    (cmd : MoveCmd K) (hfresh : cmd.cbOf ≠ some c) (ds : List K) :
    c ∉ ((n.applyCmd dist cmd).run ds).fired := by
  apply MotionNode.run_notin
  · cases cmd with
    | move x y => simpa [MotionNode.applyCmd, MotionNode.Move] using hnot
    | moveOver x y d cb =>
      simpa [MotionNode.applyCmd, MotionNode.MoveOver] using hnot
    | moveAt x y s cb =>
      simpa [MotionNode.applyCmd, MotionNode.MoveAt, MotionNode.MoveOver] using hnot
  · intro t' ht'
    cases cmd with
    | move x y => simp [MotionNode.applyCmd, MotionNode.Move] at ht'
    | moveOver x y d cb =>
      simp only [MotionNode.applyCmd, MotionNode.MoveOver, Option.some.injEq] at ht'
      rw [← ht']
      intro hceq
      simp at hceq
      exact hfresh (by simp [MoveCmd.cbOf, hceq])
    | moveAt x y s cb =>
      simp only [MotionNode.applyCmd, MotionNode.MoveAt, MotionNode.MoveOver,
        Option.some.injEq] at ht'
      rw [← ht']
      intro hceq
      simp at hceq
      exact hfresh (by simp [MoveCmd.cbOf, hceq])

/-- A concrete node with an in-flight tween whose callback 1 has not fired. -/
def moverBusy : MotionNode ℚ :=
  ⟨0, 0, false, some ⟨0, 0, 5, 5, 0, 10, 1⟩, []⟩

/-- Witness for C3 at a concrete run: replacing the active tween (callback 1)
by a `MoveOver` carrying callback 2 and then ticking to completion never
fires callback 1. -/
theorem c3_interruption_never_fires_old_callback_witness :
    1 ∉ ((moverBusy.applyCmd (fun _ _ _ _ => 0) (.moveOver 2 2 1 2)).run [3, 4]).fired :=
  c3_interruption_never_fires_old_callback (fun _ _ _ _ => 0) moverBusy
    ⟨0, 0, 5, 5, 0, 10, 1⟩ 1 rfl rfl (by simp [moverBusy]) (.moveOver 2 2 1 2)
    (by decide) [3, 4]

theorem euclidDist_self (a b : ℝ) : euclidDist a b a b = 0 := by
  simp [euclidDist]

theorem euclidDist_vertical : euclidDist 10 10 10 110 = 100 := by
  unfold euclidDist
  rw [show ((10 : ℝ) - 10) ^ 2 + ((110 : ℝ) - 10) ^ 2 = 100 ^ 2 by norm_num]
  exact Real.sqrt_sq (by norm_num)

/-- C7: `MoveAt` derives its duration exactly once at creation as
`distance(start, target) / pixelsPerSecond` and is from then on exactly a
fixed-duration tween; when the speed is not positive or the start equals the
target the created duration is 0 (no division by zero, no non-terminating
tween) and ticking once by any nonnegative delta arrives at the target and
fires the callback. -/
theorem c7_moveAt_derives_duration_once (n : MotionNode ℝ) (x y s : ℝ) (cb : Nat) :
    n.MoveAt euclidDist x y s cb
      = n.MoveOver x y (if s ≤ 0 then 0 else euclidDist n.x n.y x y / s) cb ∧
    (n.MoveAt euclidDist x y s cb).motion
      = some ⟨n.x, n.y, x, y, 0, if s ≤ 0 then 0 else euclidDist n.x n.y x y / s, cb⟩ ∧
    (s ≤ 0 ∨ (n.x = x ∧ n.y = y) →
      (n.MoveAt euclidDist x y s cb).motion = some ⟨n.x, n.y, x, y, 0, 0, cb⟩) ∧
    (n.paused = false → s ≤ 0 ∨ (n.x = x ∧ n.y = y) → ∀ d : ℝ, 0 ≤ d →
      ((n.MoveAt euclidDist x y s cb).tick d).x = x ∧
      ((n.MoveAt euclidDist x y s cb).tick d).y = y ∧
      ((n.MoveAt euclidDist x y s cb).tick d).motion = none ∧
      ((n.MoveAt euclidDist x y s cb).tick d).fired = n.fired ++ [cb]) := by
  have hdur : s ≤ 0 ∨ (n.x = x ∧ n.y = y) →
      (if s ≤ 0 then (0 : ℝ) else euclidDist n.x n.y x y / s) = 0 := by
    intro h
    rcases h with hs | ⟨hx, hy⟩
    · simp [hs]
    · by_cases hs : s ≤ 0
      · simp [hs]
      · rw [← hx, ← hy]
        simp [hs, euclidDist_self]
  refine ⟨rfl, rfl, ?_, ?_⟩
  · intro h
    simp [MotionNode.MoveAt, MotionNode.MoveOver, hdur h]
  · intro hpz h d hd
    simp [MotionNode.tick, MotionNode.MoveAt, MotionNode.MoveOver, hpz, hdur h, hd]

/-- A concrete unpaused node at `(10, 10)` over `ℝ`. -/
noncomputable def moverR : MotionNode ℝ :=
  ⟨10, 10, false, none, []⟩

/-- Witness for C7 at the spec's concrete scenario: `MoveAt(10, 110, 50)`
from `(10, 10)` creates a tween of duration exactly 2.0 seconds, and a
zero-speed `MoveAt` arrives (firing its callback) on the next tick. -/
theorem c7_moveAt_derives_duration_once_witness :
    (moverR.MoveAt euclidDist 10 110 50 3).motion
      = some ⟨10, 10, 10, 110, 0, 2, 3⟩ ∧
    ((moverR.MoveAt euclidDist 10 10 0 3).tick 1).fired = [3] := by
  constructor
  · have h := (c7_moveAt_derives_duration_once moverR 10 110 50 3).2.1
    rw [h]
    have hle : ¬ ((50 : ℝ) ≤ 0) := by norm_num
    simp only [moverR, hle, if_false]
    rw [euclidDist_vertical]
    norm_num
  · have h := (c7_moveAt_derives_duration_once moverR 10 10 0 3).2.2.2 rfl
      (Or.inl (by norm_num)) 1 (by norm_num)
    have hf : moverR.fired = [] := rfl
    rw [h.2.2.2, hf]
    rfl

/-- Modelled from the spec: the missing Animation Player's playback record
(spec section 3, `AnimationPlayback`): an ordered frame sequence (frames are
opaque content handles, represented by numeric identifiers), current frame
index, per-frame elapsed time, looping flag, optional completion callback,
and whether a one-shot playback has already completed. -/
structure Playback where
  frames : List Nat
  index : Nat
  elapsed : ℚ
  looping : Bool
  cbId : Option Nat
  completed : Bool

/-- Modelled from the spec: the animation-related state of a sprite-like
node: the at-most-one active playback, the effective-paused flag and the
ordered log of completion callbacks that have fired. -/
structure Sprite where
  playback : Option Playback
  paused : Bool
  fired : List Nat

/-- Modelled from the spec: one frame tick of the Animation Player (spec
sections 3 and 4.4): paused or completed playbacks do not advance; a
one-shot sequence of length at most one completes immediately on the next
tick; otherwise each frame is displayed for the engine-defined uniform
`period`, whole elapsed periods advance the index — wrapping for a loop,
freezing on the last frame and firing `onCompletion` exactly once for a
one-shot. -/
def Sprite.tick (period d : ℚ) (n : Sprite) : Sprite :=
  if n.paused then n else
  match n.playback with
  | none => n
  | some pb =>
    if pb.completed then n
    else if pb.frames.length ≤ 1 ∧ pb.looping = false then
      { n with
        playback := some { pb with index := 0, completed := true }
        fired := n.fired ++ pb.cbId.toList }
    else if pb.looping then
      { n with
        playback := some { pb with
          index := (pb.index + (⌊(pb.elapsed + d) / period⌋).toNat) % pb.frames.length
          elapsed := pb.elapsed + d - (⌊(pb.elapsed + d) / period⌋).toNat * period } }
    else if pb.frames.length ≤ pb.index + (⌊(pb.elapsed + d) / period⌋).toNat then
      { n with
        playback := some { pb with
          index := pb.frames.length - 1
          elapsed := 0
          completed := true }
        fired := n.fired ++ pb.cbId.toList }
    else
      { n with
        playback := some { pb with
          index := pb.index + (⌊(pb.elapsed + d) / period⌋).toNat
          elapsed := pb.elapsed + d - (⌊(pb.elapsed + d) / period⌋).toNat * period } }

/-- Tick a sprite through a whole sequence of frame deltas, in order. -/
def Sprite.run (period : ℚ) (n : Sprite) (ds : List ℚ) : Sprite :=
  ds.foldl (fun m d => Sprite.tick period d m) n

/-- Modelled from the spec: `Play` starts a non-looping playback from the
first frame, replacing any prior playback and dropping its callback. -/
def Sprite.Play (n : Sprite) (frames : List Nat) (cb : Option Nat) : Sprite :=
  { n with playback := some ⟨frames, 0, 0, false, cb, false⟩ }

/-- Modelled from the spec: `Loop` starts a looping playback from the first
frame; a looping playback never completes. -/
def Sprite.Loop (n : Sprite) (frames : List Nat) : Sprite :=
  { n with playback := some ⟨frames, 0, 0, true, none, false⟩ }

/-- The frame a sprite currently displays, if any. -/
def Sprite.frame (n : Sprite) : Option Nat :=
  n.playback.bind (fun pb => pb.frames[pb.index]?)

/-- The state of an unpaused one-shot playback after `s` seconds, before
completion. -/
def playMidState (n0 : Sprite) (frames : List Nat) (cb : Nat) (period s : ℚ) : Sprite :=
  { playback := some ⟨frames, (⌊s / period⌋).toNat, s - ⌊s / period⌋ * period,
      false, some cb, false⟩
    paused := false
    fired := n0.fired }

/-- The state of a sprite after its one-shot playback completed: frozen on
the last frame, completion fired exactly once. -/
def playDoneState (n0 : Sprite) (frames : List Nat) (cb : Nat) : Sprite :=
  { playback := some ⟨frames, frames.length - 1, 0, false, some cb, true⟩
    paused := false
    fired := n0.fired ++ [cb] }

/-- The state of an unpaused looping playback after `s` seconds. -/
def loopState (n0 : Sprite) (frames : List Nat) (period s : ℚ) : Sprite :=
  { playback := some ⟨frames, (⌊s / period⌋).toNat % frames.length,
      s - ⌊s / period⌋ * period, true, none, false⟩
    paused := false
    fired := n0.fired }

theorem floor_shift (p s d : ℚ) (hp : 0 < p) :
    ⌊(s - ⌊s / p⌋ * p + d) / p⌋ = ⌊(s + d) / p⌋ - ⌊s / p⌋ := by
  have hline : (s - ⌊s / p⌋ * p + d) / p = (s + d) / p - ⌊s / p⌋ := by
    field_simp
    ring
  rw [hline, Int.floor_sub_int]

theorem floor_div_mono (p s s' : ℚ) (hp : 0 < p) (h : s ≤ s') :
    ⌊s / p⌋ ≤ ⌊s' / p⌋ :=
  Int.floor_le_floor ((div_le_div_iff_of_pos_right hp).mpr h)

theorem playDone_inert (n0 : Sprite) (frames : List Nat) (cb : Nat) (period : ℚ)
    (ds : List ℚ) :
    (playDoneState n0 frames cb).run period ds = playDoneState n0 frames cb := by
  induction ds with
  | nil => rfl
  | cons d ds ih =>
    simpa [Sprite.run, Sprite.tick, playDoneState] using ih

theorem playMid_tick_cont (n0 : Sprite) (frames : List Nat) (cb : Nat) (period s d : ℚ)
    (hp : 0 < period) (hs : 0 ≤ s) (hd : 0 ≤ d) (hlen : 2 ≤ frames.length)
    (hcont : ⌊(s + d) / period⌋ < (frames.length : ℤ)) :
    Sprite.tick period d (playMidState n0 frames cb period s)
      = playMidState n0 frames cb period (s + d) := by
  have hM : (0 : ℤ) ≤ ⌊s / period⌋ := Int.floor_nonneg.mpr (div_nonneg hs hp.le)
  have hMM : ⌊s / period⌋ ≤ ⌊(s + d) / period⌋ :=
    floor_div_mono period s (s + d) hp (by linarith)
  have hk : ⌊(s - ⌊s / period⌋ * period + d) / period⌋
      = ⌊(s + d) / period⌋ - ⌊s / period⌋ := floor_shift period s d hp
  have hng : ¬ (frames.length ≤ 1) := by omega
  have hidx : (⌊s / period⌋).toNat + (⌊(s + d) / period⌋ - ⌊s / period⌋).toNat
      = (⌊(s + d) / period⌋).toNat := by omega
  have hcond : ¬ (frames.length ≤ (⌊s / period⌋).toNat
      + (⌊(s + d) / period⌋ - ⌊s / period⌋).toNat) := by omega
  have htn : ((⌊(s + d) / period⌋ - ⌊s / period⌋).toNat : ℤ)
      = ⌊(s + d) / period⌋ - ⌊s / period⌋ := Int.toNat_of_nonneg (by omega)
  have hcast : ((⌊(s + d) / period⌋ - ⌊s / period⌋).toNat : ℚ)
      = ((⌊(s + d) / period⌋ : ℚ) - (⌊s / period⌋ : ℚ)) := by
    exact_mod_cast htn
  have helapsed : s - (⌊s / period⌋ : ℚ) * period + d
      - ((⌊(s + d) / period⌋ - ⌊s / period⌋).toNat : ℚ) * period
      = s + d - (⌊(s + d) / period⌋ : ℚ) * period := by
    rw [hcast]
    ring
  simp only [Sprite.tick, playMidState, Bool.false_eq_true, if_false, hk, hng,
    false_and, hcond, if_true]
  rw [hidx, helapsed]

theorem playMid_tick_done (n0 : Sprite) (frames : List Nat) (cb : Nat) (period s d : ℚ)
    (hp : 0 < period) (hs : 0 ≤ s) (hlen : 2 ≤ frames.length)
    (hcur : ⌊s / period⌋ < (frames.length : ℤ))
    (hdone : (frames.length : ℤ) ≤ ⌊(s + d) / period⌋) :
    Sprite.tick period d (playMidState n0 frames cb period s)
      = playDoneState n0 frames cb := by
  have hM : (0 : ℤ) ≤ ⌊s / period⌋ := Int.floor_nonneg.mpr (div_nonneg hs hp.le)
  have hk : ⌊(s - ⌊s / period⌋ * period + d) / period⌋
      = ⌊(s + d) / period⌋ - ⌊s / period⌋ := floor_shift period s d hp
  have hng : ¬ (frames.length ≤ 1) := by omega
  have hcond : frames.length ≤ (⌊s / period⌋).toNat
      + (⌊(s + d) / period⌋ - ⌊s / period⌋).toNat := by omega
  simp only [Sprite.tick, playMidState, playDoneState, Bool.false_eq_true, if_false,
    hk, hng, false_and, hcond, if_true]
  simp

theorem loop_tick (n0 : Sprite) (frames : List Nat) (period s d : ℚ)
    (hp : 0 < period) (hs : 0 ≤ s) (hd : 0 ≤ d) :
    Sprite.tick period d (loopState n0 frames period s)
      = loopState n0 frames period (s + d) := by
  have hM : (0 : ℤ) ≤ ⌊s / period⌋ := Int.floor_nonneg.mpr (div_nonneg hs hp.le)
  have hMM : ⌊s / period⌋ ≤ ⌊(s + d) / period⌋ :=
    floor_div_mono period s (s + d) hp (by linarith)
  have hk : ⌊(s - ⌊s / period⌋ * period + d) / period⌋
      = ⌊(s + d) / period⌋ - ⌊s / period⌋ := floor_shift period s d hp
  have htn : ((⌊(s + d) / period⌋ - ⌊s / period⌋).toNat : ℤ)
      = ⌊(s + d) / period⌋ - ⌊s / period⌋ := Int.toNat_of_nonneg (by omega)
  have hcast : ((⌊(s + d) / period⌋ - ⌊s / period⌋).toNat : ℚ)
      = ((⌊(s + d) / period⌋ : ℚ) - (⌊s / period⌋ : ℚ)) := by
    exact_mod_cast htn
  have helapsed : s - (⌊s / period⌋ : ℚ) * period + d
      - ((⌊(s + d) / period⌋ - ⌊s / period⌋).toNat : ℚ) * period
      = s + d - (⌊(s + d) / period⌋ : ℚ) * period := by
    rw [hcast]
    ring
  have htot : (⌊s / period⌋).toNat + (⌊(s + d) / period⌋ - ⌊s / period⌋).toNat
      = (⌊(s + d) / period⌋).toNat := by omega
  simp only [Sprite.tick, loopState, Bool.false_eq_true, Bool.true_eq_false,
    if_false, and_false, if_true, hk]
  rw [Nat.mod_add_mod, htot, helapsed]

theorem playMid_run_done (n0 : Sprite) (frames : List Nat) (cb : Nat) (period : ℚ)
    (hp : 0 < period) (hlen : 2 ≤ frames.length) (ds : List ℚ) :
    ∀ s : ℚ, 0 ≤ s → (∀ t ∈ ds, 0 ≤ t) → ⌊s / period⌋ < (frames.length : ℤ) →
      (frames.length : ℤ) ≤ ⌊(s + ds.sum) / period⌋ →
      (playMidState n0 frames cb period s).run period ds
        = playDoneState n0 frames cb := by
  induction ds with
  | nil =>
    intro s hs _ hcur hfin
    simp only [List.sum_nil, add_zero] at hfin
    exact absurd (lt_of_le_of_lt hfin hcur) (lt_irrefl _)
  | cons d ds ih =>
    intro s hs hnn hcur hfin
    have hd : 0 ≤ d := hnn d (by simp)
    have hnn2 : ∀ t ∈ ds, 0 ≤ t := fun t ht => hnn t (by simp [ht])
    have hfin2 : (frames.length : ℤ) ≤ ⌊(s + d + ds.sum) / period⌋ := by
      rw [show s + d + ds.sum = s + (d + ds.sum) by ring]
      simpa using hfin
    simp only [Sprite.run, List.foldl_cons]
    rw [show List.foldl (fun m t => Sprite.tick period t m)
      (Sprite.tick period d (playMidState n0 frames cb period s)) ds
      = (Sprite.tick period d (playMidState n0 frames cb period s)).run period ds
      from rfl]
    by_cases hc : (frames.length : ℤ) ≤ ⌊(s + d) / period⌋
    · rw [playMid_tick_done n0 frames cb period s d hp hs hlen hcur hc]
      exact playDone_inert n0 frames cb period ds
    · push_neg at hc
      rw [playMid_tick_cont n0 frames cb period s d hp hs hd hlen hc]
      exact ih (s + d) (by linarith) hnn2 hc hfin2

theorem loop_run (n0 : Sprite) (frames : List Nat) (period : ℚ) (hp : 0 < period)
    (ds : List ℚ) :
    ∀ s : ℚ, 0 ≤ s → (∀ t ∈ ds, 0 ≤ t) →
      (loopState n0 frames period s).run period ds
        = loopState n0 frames period (s + ds.sum) := by
  induction ds with
  | nil =>
    intro s _ _
    simp [Sprite.run]
  | cons d ds ih =>
    intro s hs hnn
    have hd : 0 ≤ d := hnn d (by simp)
    simp only [Sprite.run, List.foldl_cons]
    rw [show List.foldl (fun m t => Sprite.tick period t m)
      (Sprite.tick period d (loopState n0 frames period s)) ds
      = (Sprite.tick period d (loopState n0 frames period s)).run period ds from rfl]
    rw [loop_tick n0 frames period s d hp hs hd]
    rw [ih (s + d) (by linarith) (fun t ht => hnn t (by simp [ht]))]
    exact congrArg (loopState n0 frames period) (by rw [List.sum_cons]; ring)

theorem play_eq_mid (n0 : Sprite) (frames : List Nat) (cb : Nat)
    (hpz : n0.paused = false) (period : ℚ) :
    n0.Play frames (some cb) = playMidState n0 frames cb period 0 := by
  simp [Sprite.Play, playMidState, hpz]

theorem loop_eq_state (n0 : Sprite) (frames : List Nat) (hpz : n0.paused = false)
    (period : ℚ) :
    n0.Loop frames = loopState n0 frames period 0 := by
  simp [Sprite.Loop, loopState, hpz]

theorem play_short_tick (n0 : Sprite) (frames : List Nat) (cb : Nat) (period d : ℚ)
    (hlen : frames.length ≤ 1) :
    Sprite.tick period d (playMidState n0 frames cb period 0)
      = playDoneState n0 frames cb := by
  have hz : frames.length - 1 = 0 := by omega
  simp [Sprite.tick, playMidState, playDoneState, hlen, hz]

/-- C4: for every sprite and non-empty frame sequence, after
`Play(frames, onCompletion)` and ticking (never paused, nonnegative deltas)
past the total duration, `onCompletion` has fired exactly once, the
displayed frame is the last frame, and any number of further ticks changes
nothing; for `Loop` on any sequence, no completion callback ever fires and
the index wraps modulo the sequence length indefinitely. -/
theorem c4_play_completes_once_loop_never_completes (n0 : Sprite)
    (frames : List Nat) (cb : Nat) (period : ℚ) (ds : List ℚ)
    (hpz : n0.paused = false) (hper : 0 < period) (hne : frames ≠ [])
    (hnn : ∀ t ∈ ds, 0 ≤ t) (hsum : (frames.length : ℚ) * period ≤ ds.sum) :
    ((n0.Play frames (some cb)).run period ds).fired = n0.fired ++ [cb] ∧
    Sprite.frame ((n0.Play frames (some cb)).run period ds)
      = frames[frames.length - 1]? ∧
    (∀ more : List ℚ, ((n0.Play frames (some cb)).run period ds).run period more
      = (n0.Play frames (some cb)).run period ds) ∧
    (∀ ds2 : List ℚ, (∀ t ∈ ds2, 0 ≤ t) →
      ((n0.Loop frames).run period ds2).fired = n0.fired ∧
      ∃ pb, ((n0.Loop frames).run period ds2).playback = some pb ∧
        pb.index = (⌊ds2.sum / period⌋).toNat % frames.length ∧
        pb.index < frames.length) := by
  have hlpos : 0 < frames.length := List.length_pos.mpr hne
  have hrun : (n0.Play frames (some cb)).run period ds = playDoneState n0 frames cb := by
    rw [play_eq_mid n0 frames cb hpz period]
    by_cases hlen : 2 ≤ frames.length
    · apply playMid_run_done n0 frames cb period hper hlen ds 0 le_rfl hnn
      · rw [zero_div, Int.floor_zero]
        exact_mod_cast hlpos
      · rw [zero_add, Int.le_floor]
        push_cast
        rw [le_div_iff₀ hper]
        exact hsum
    · push_neg at hlen
      cases ds with
      | nil =>
        exfalso
        simp only [List.sum_nil] at hsum
        have hone : (1 : ℚ) ≤ (frames.length : ℚ) := by exact_mod_cast hlpos
        nlinarith
      | cons d ds2 =>
        simp only [Sprite.run, List.foldl_cons]
        rw [show List.foldl (fun m t => Sprite.tick period t m)
          (Sprite.tick period d (playMidState n0 frames cb period 0)) ds2
          = (Sprite.tick period d (playMidState n0 frames cb period 0)).run period ds2
          from rfl]
        rw [play_short_tick n0 frames cb period d (by omega)]
        exact playDone_inert n0 frames cb period ds2
  refine ⟨by rw [hrun]; rfl, by rw [hrun]; rfl, ?_, ?_⟩
  · intro more
    rw [hrun]
    exact playDone_inert n0 frames cb period more
  · intro ds2 hnn2
    have hrun2 : (n0.Loop frames).run period ds2
        = loopState n0 frames period (0 + ds2.sum) := by
      rw [loop_eq_state n0 frames hpz period]
      exact loop_run n0 frames period hper ds2 0 le_rfl hnn2
    rw [hrun2]
    exact ⟨rfl, ⟨_, rfl, by rw [zero_add], Nat.mod_lt _ hlpos⟩⟩

/-- A concrete sprite with no playback, unpaused, no history. -/
def sprite0 : Sprite :=
  ⟨none, false, []⟩

/-- Witness for C4 at a concrete run: `Play [4, 9]` with one-second frames
ticked `[1, 1]` fires completion exactly once and freezes on frame 9. -/
theorem c4_play_completes_once_loop_never_completes_witness :
    ((sprite0.Play [4, 9] (some 3)).run 1 [1, 1]).fired = [3] ∧
    Sprite.frame ((sprite0.Play [4, 9] (some 3)).run 1 [1, 1]) = some 9 := by
  have h := c4_play_completes_once_loop_never_completes sprite0 [4, 9] 3 1 [1, 1]
    rfl (by norm_num) (by simp) (by decide) (by norm_num)
  refine ⟨by simpa using h.1, ?_⟩
  rw [h.2.1]
  rfl

/-- Modelled from the spec: the lifecycle states of a recurring timer
(spec section 3): scheduled, paused (resumable) or stopped (terminal). -/
inductive RTimerState where
  | scheduled
  | pausedT
  | stopped
deriving DecidableEq

/-- Modelled from the spec: the firing loop of a recurring timer within one
tick (spec section 4.5) — each time elapsed ≥ interval the callback fires
and elapsed is reduced by the interval, processed in order, not collapsed;
returns the remaining elapsed time and the number of firings. -/
def recurFire (i e : ℚ) : ℚ × Nat :=
  if h : 0 < i ∧ i ≤ e then
    ((recurFire i (e - i)).1, (recurFire i (e - i)).2 + 1)
  else (e, 0)
termination_by (⌊e / i⌋).toNat
decreasing_by
  all_goals
    have hi : 0 < i := h.1
    have hie : i ≤ e := h.2
    have h1 : (1 : ℤ) ≤ ⌊e / i⌋ := by
      rw [Int.le_floor]
      push_cast
      rw [le_div_iff₀ hi]
      linarith
    have h2 : ⌊(e - i) / i⌋ = ⌊e / i⌋ - 1 := by
      rw [show (e - i) / i = e / i - 1 by field_simp]
      exact_mod_cast Int.floor_sub_int (e / i) 1
    simp only [h2]
    omega

/-- Modelled from the spec: the missing `RecurringTimer` state — interval,
accumulated elapsed time, lifecycle state, and the total number of times the
`onInterval` callback has fired. -/
structure RecurringTimer where
  intervalSeconds : ℚ
  elapsed : ℚ
  state : RTimerState
  fires : Nat

/-- Modelled from the spec: one tick of a recurring timer — a timer that is
paused or stopped does not accumulate; otherwise elapsed accumulates by the
delta and the firing loop runs. -/
def RecurringTimer.tick (t : RecurringTimer) (d : ℚ) : RecurringTimer :=
  if t.state = .scheduled then
    { t with
      elapsed := (recurFire t.intervalSeconds (t.elapsed + d)).1
      fires := t.fires + (recurFire t.intervalSeconds (t.elapsed + d)).2 }
  else t

/-- Modelled from the spec: `Pause` pauses the timer if not paused or
stopped. -/
def RecurringTimer.Pause (t : RecurringTimer) : RecurringTimer :=
  if t.state = .scheduled then { t with state := .pausedT } else t

/-- Modelled from the spec: `Resume` resumes the timer if paused and not
stopped. -/
def RecurringTimer.Resume (t : RecurringTimer) : RecurringTimer :=
  if t.state = .pausedT then { t with state := .scheduled } else t

/-- Modelled from the spec: `Stop` stops the timer permanently. -/
def RecurringTimer.Stop (t : RecurringTimer) : RecurringTimer :=
  { t with state := .stopped }

theorem recurFire_count (i : ℚ) (hi : 0 < i) :
    ∀ n : ℕ, ∀ e : ℚ, 0 ≤ e → (⌊e / i⌋).toNat = n →
      (recurFire i e).2 = n ∧ (recurFire i e).1 = e - n * i := by
  intro n
  induction n with
  | zero =>
    intro e he hn
    have hlt : e < i := by
      by_contra hge
      push_neg at hge
      have h1 : (1 : ℤ) ≤ ⌊e / i⌋ := by
        rw [Int.le_floor]
        push_cast
        rw [le_div_iff₀ hi]
        linarith
      omega
    rw [recurFire, dif_neg (by push_neg; intro _; linarith)]
    simp
  | succ n ih =>
    intro e he hn
    have hie : i ≤ e := by
      by_contra hlt
      push_neg at hlt
      have h0 : ⌊e / i⌋ = 0 := by
        rw [Int.floor_eq_zero_iff]
        constructor
        · exact div_nonneg he hi.le
        · rw [div_lt_one hi]
          exact hlt
      omega
    have h1 : (1 : ℤ) ≤ ⌊e / i⌋ := by
      rw [Int.le_floor]
      push_cast
      rw [le_div_iff₀ hi]
      linarith
    have h2 : ⌊(e - i) / i⌋ = ⌊e / i⌋ - 1 := by
      rw [show (e - i) / i = e / i - 1 by field_simp]
      exact_mod_cast Int.floor_sub_int (e / i) 1
    have hstep : (⌊(e - i) / i⌋).toNat = n := by omega
    have hrec := ih (e - i) (by linarith) hstep
    rw [recurFire, dif_pos ⟨hi, hie⟩]
    refine ⟨by rw [hrec.1], ?_⟩
    rw [hrec.2]
    push_cast
    ring

/-- C5: for every `RecurringTimer` with positive interval that is neither
paused nor stopped, a single tick with delta `d` fires the callback exactly
`floor((elapsed + d) / interval)` times — each firing reducing elapsed by
the interval — so a `RecurringTimer(1.0, cb)` ticked once by 2.5 fires
twice in that tick. -/
theorem c5_recurring_timer_fires_floor_times (t : RecurringTimer) (d : ℚ)
    (hsched : t.state = .scheduled) (hi : 0 < t.intervalSeconds)
    (he : 0 ≤ t.elapsed) (hd : 0 ≤ d) :
    (t.tick d).fires
      = t.fires + (⌊(t.elapsed + d) / t.intervalSeconds⌋).toNat ∧
    (t.tick d).elapsed = t.elapsed + d
      - (⌊(t.elapsed + d) / t.intervalSeconds⌋).toNat * t.intervalSeconds ∧
    (t.tick d).state = .scheduled := by
  have hcount := recurFire_count t.intervalSeconds hi
    (⌊(t.elapsed + d) / t.intervalSeconds⌋).toNat (t.elapsed + d)
    (by linarith) rfl
  unfold RecurringTimer.tick
  rw [if_pos hsched]
  exact ⟨by rw [hcount.1], by rw [hcount.2], hsched⟩

/-- A concrete recurring timer with a one-second interval, just created. -/
def timerOneSecond : RecurringTimer :=
  ⟨1, 0, .scheduled, 0⟩

/-- Witness for C5 at the spec's concrete scenario: a one-second recurring
timer ticked once by 2.5 seconds fires exactly twice, leaving elapsed 0.5. -/
theorem c5_recurring_timer_fires_floor_times_witness :
    (timerOneSecond.tick (5 / 2)).fires = 2 ∧
    (timerOneSecond.tick (5 / 2)).elapsed = 1 / 2 := by
  have h := c5_recurring_timer_fires_floor_times timerOneSecond (5 / 2) rfl
    (by norm_num [timerOneSecond]) (by norm_num [timerOneSecond]) (by norm_num)
  have hfl : (⌊((timerOneSecond.elapsed + 5 / 2) / timerOneSecond.intervalSeconds : ℚ)⌋).toNat
      = 2 := by
    norm_num [timerOneSecond]
    rfl
  refine ⟨?_, ?_⟩
  · rw [h.1, hfl]
    rfl
  · rw [h.2.1, hfl]
    norm_num [timerOneSecond]

/-- Modelled from the spec: the lifecycle states of a one-shot timer (spec
section 3): `Scheduled`, `Paused` (resumable), `Cancelled` (terminal) and
`Fired`. -/
inductive OTimerState where
  | scheduled
  | pausedT
  | cancelled
  | fired
deriving DecidableEq

/-- Modelled from the spec: the missing one-shot `Timer` state — duration,
accumulated elapsed time, lifecycle state, and how many times the callback
has fired. -/
structure Timer where
  durationSeconds : ℚ
  elapsed : ℚ
  state : OTimerState
  fireCount : Nat

/-- Modelled from the spec: one tick of a one-shot timer — only a scheduled
timer accumulates elapsed time; when elapsed reaches the duration the
callback fires once and the state becomes `Fired`. -/
def Timer.tick (t : Timer) (d : ℚ) : Timer :=
  if t.state = .scheduled then
    if t.durationSeconds ≤ t.elapsed + d then
      { t with elapsed := t.elapsed + d, state := .fired, fireCount := t.fireCount + 1 }
    else
      { t with elapsed := t.elapsed + d }
  else t

/-- Modelled from the source doc comment: pauses this timer if not paused or
cancelled or completed. -/
def Timer.Pause (t : Timer) : Timer :=
  if t.state = .scheduled then { t with state := .pausedT } else t

/-- Modelled from the source doc comment: resumes this timer if paused and
not cancelled or completed. -/
def Timer.Resume (t : Timer) : Timer :=
  if t.state = .pausedT then { t with state := .scheduled } else t

/-- Modelled from the source doc comment: cancels this timer, effectively
pausing it permanently. -/
def Timer.Cancel (t : Timer) : Timer :=
  { t with state := .cancelled }

/-- An operation a caller or the frame loop can perform on a one-shot
timer. -/
inductive TimerOp where
  | tickOp (d : ℚ)
  | pauseOp
  | resumeOp
  | cancelOp

/-- Apply one timer operation. -/
def Timer.applyOp (t : Timer) : TimerOp → Timer
  | .tickOp d => t.tick d
  | .pauseOp => t.Pause
  | .resumeOp => t.Resume
  | .cancelOp => t.Cancel

/-- Apply a whole sequence of timer operations, in order. -/
def Timer.runOps (t : Timer) (ops : List TimerOp) : Timer :=
  ops.foldl Timer.applyOp t

theorem Timer.applyOp_invariant (t : Timer) (op : TimerOp)
    (h1 : t.fireCount ≤ 1)
    (h2 : t.state = .scheduled ∨ t.state = .pausedT → t.fireCount = 0) :
    (t.applyOp op).fireCount ≤ 1 ∧
    ((t.applyOp op).state = .scheduled ∨ (t.applyOp op).state = .pausedT →
      (t.applyOp op).fireCount = 0) := by
  cases op with
  | tickOp d =>
    simp only [Timer.applyOp, Timer.tick]
    by_cases hs : t.state = .scheduled
    · have hz : t.fireCount = 0 := h2 (Or.inl hs)
      by_cases hc : t.durationSeconds ≤ t.elapsed + d
      · simp [hs, hc, hz]
      · simp [hs, hc, hz]
    · rw [if_neg hs]
      exact ⟨h1, h2⟩
  | pauseOp =>
    simp only [Timer.applyOp, Timer.Pause]
    by_cases hs : t.state = .scheduled
    · simp [hs, h2 (Or.inl hs)]
    · rw [if_neg hs]
      exact ⟨h1, h2⟩
  | resumeOp =>
    simp only [Timer.applyOp, Timer.Resume]
    by_cases hs : t.state = .pausedT
    · simp [hs, h2 (Or.inr hs)]
    · rw [if_neg hs]
      exact ⟨h1, h2⟩
  | cancelOp =>
    simp [Timer.applyOp, Timer.Cancel, h1]

theorem Timer.runOps_invariant (ops : List TimerOp) :
    ∀ t : Timer, t.fireCount ≤ 1 →
    (t.state = .scheduled ∨ t.state = .pausedT → t.fireCount = 0) →
    (t.runOps ops).fireCount ≤ 1 := by
  induction ops with
  | nil => intro t h1 _; exact h1
  | cons op ops ih =>
    intro t h1 h2
    have hstep := Timer.applyOp_invariant t op h1 h2
    exact ih (t.applyOp op) hstep.1 hstep.2

theorem Timer.applyOp_inert (t : Timer) (op : TimerOp)
    (h : t.state = .fired ∨ t.state = .cancelled) :
    (t.applyOp op).fireCount = t.fireCount ∧
    ((t.applyOp op).state = .fired ∨ (t.applyOp op).state = .cancelled) := by
  have hns : t.state ≠ .scheduled := by rcases h with h | h <;> simp [h]
  have hnp : t.state ≠ .pausedT := by rcases h with h | h <;> simp [h]
  cases op with
  | tickOp d => simp [Timer.applyOp, Timer.tick, hns, h]
  | pauseOp => simp [Timer.applyOp, Timer.Pause, hns, h]
  | resumeOp => simp [Timer.applyOp, Timer.Resume, hnp, h]
  | cancelOp => simp [Timer.applyOp, Timer.Cancel]

theorem Timer.runOps_inert (ops : List TimerOp) :
    ∀ t : Timer, t.state = .fired ∨ t.state = .cancelled →
    (t.runOps ops).fireCount = t.fireCount := by
  induction ops with
  | nil => intro t _; rfl
  | cons op ops ih =>
    intro t h
    have hstep := Timer.applyOp_inert t op h
    have hrec := ih (t.applyOp op) hstep.2
    calc (t.runOps (op :: ops)).fireCount
        = ((t.applyOp op).runOps ops).fireCount := rfl
      _ = (t.applyOp op).fireCount := hrec
      _ = t.fireCount := hstep.1

/-- C8: a one-shot timer started `Scheduled` fires at most once over any
sequence of operations; once `Fired` it is inert (no operation sequence
changes its fire count); `Cancel` is terminal — `Resume` after `Cancel`
leaves it cancelled and ticks accumulate nothing — while `Resume` after
`Pause` restores the scheduled timer exactly, elapsed included. -/
theorem c8_one_shot_timer_fires_once (dur : ℚ) (ops : List TimerOp) (t : Timer) :
    ((Timer.mk dur 0 .scheduled 0).runOps ops).fireCount ≤ 1 ∧
    (t.state = .fired → ∀ ops2 : List TimerOp,
      (t.runOps ops2).fireCount = t.fireCount) ∧
    t.Cancel.Resume = t.Cancel ∧
    t.Cancel.state = .cancelled ∧
    (∀ d : ℚ, t.Cancel.tick d = t.Cancel) ∧
    (t.state = .scheduled → t.Pause.Resume = t) := by
  refine ⟨?_, ?_, ?_, rfl, ?_, ?_⟩
  · exact Timer.runOps_invariant ops (Timer.mk dur 0 .scheduled 0) (by norm_num)
      (fun _ => rfl)
  · intro hf ops2
    exact Timer.runOps_inert ops2 t (Or.inl hf)
  · simp [Timer.Cancel, Timer.Resume]
  · intro d
    simp [Timer.Cancel, Timer.tick]
  · intro hs
    cases t with
    | mk dur2 el st cnt =>
      simp only [Timer.Pause, Timer.Resume]
      simp at hs
      simp [hs]

/-- Witness for C8 at concrete timers: a 2-second timer ticked by 1, 1 and 5
seconds fires at most once, and pausing then resuming a scheduled timer
restores it exactly. -/
theorem c8_one_shot_timer_fires_once_witness :
    ((Timer.mk 2 0 .scheduled 0).runOps
      [.tickOp 1, .tickOp 1, .tickOp 5]).fireCount ≤ 1 ∧
    (Timer.mk 3 1 .scheduled 0).Pause.Resume = Timer.mk 3 1 .scheduled 0 := by
  have h := c8_one_shot_timer_fires_once 2 [.tickOp 1, .tickOp 1, .tickOp 5]
    (Timer.mk 3 1 .scheduled 0)
  exact ⟨h.1, h.2.2.2.2.2 rfl⟩

/-- Modelled from the spec: the transition controller's phases (spec
section 4.6): `Idle → Entering → (callback) → Exiting → Idle`. -/
inductive TransitionPhase where
  | idle
  | entering
  | exiting
deriving DecidableEq

/-- Modelled from the spec: the transition controller's state — current
phase, time remaining in the current phase, the exit phase's duration, and
the pending scene-change callback (by identifier). -/
structure TransCtrl where
  phase : TransitionPhase
  remaining : ℚ
  exitDuration : ℚ
  pendingCall : Option Nat

/-- Modelled from the spec: the engine state the transition controller and
input dispatch share — the scene graph root, the controller, the count of
reported usage errors, the ordered log of click callbacks invoked, and the
ordered log of scene-change callbacks invoked. -/
structure Engine where
  root : SceneNode
  ctrl : TransCtrl
  errors : Nat
  clicks : List Nat
  calls : List Nat

/-- Modelled from the spec: `Transition(entryStep, exitStep, callback)`
fails — reports a usage error and makes no state change — when invoked
while not `Idle`; otherwise it enters the `Entering` phase. -/
def Engine.Transition (e : Engine) (entryDur exitDur : ℚ) (callId : Nat) : Engine :=
  if e.ctrl.phase = .idle then
    { e with ctrl := ⟨.entering, entryDur, exitDur, some callId⟩ }
  else
    { e with errors := e.errors + 1 }

/-- Modelled from the spec: advancing the transition controller by a frame
delta — the entering phase runs down, then the scene-change callback runs
synchronously between the phases, then the exiting phase runs down back to
idle. -/
def Engine.tickTransition (e : Engine) (d : ℚ) : Engine :=
  match e.ctrl.phase with
  | .idle => e
  | .entering =>
    if e.ctrl.remaining ≤ d then
      { e with
        ctrl := ⟨.exiting, e.ctrl.exitDuration, e.ctrl.exitDuration, none⟩
        calls := e.calls ++ e.ctrl.pendingCall.toList }
    else
      { e with ctrl := { e.ctrl with remaining := e.ctrl.remaining - d } }
  | .exiting =>
    if e.ctrl.remaining ≤ d then
      { e with ctrl := ⟨.idle, 0, 0, none⟩ }
    else
      { e with ctrl := { e.ctrl with remaining := e.ctrl.remaining - d } }

/-- Modelled from the spec: dispatching a click at the node addressed by a
path — while the controller is in `Entering` or `Exiting` all input is
suppressed (dropped, not queued); otherwise the click reaches the target's
callback only if the target is hit-testable and effectively enabled. -/
def Engine.dispatchClick (e : Engine) (p : List Nat) : Engine :=
  if e.ctrl.phase = .idle then
    match clickTargetAt e.root p with
    | some cid => { e with clicks := e.clicks ++ [cid] }
    | none => e
  else e

/-- C6: calling `Transition` while the controller is not `Idle` reports an
error and changes nothing else, so the second of two overlapping
`Transition` calls fails; and while the controller is `Entering` or
`Exiting`, every dispatched click is dropped — not queued, reaching no
node's click callback. -/
theorem c6_transition_exclusive_and_input_suppressed (e : Engine)
    (a b a2 b2 : ℚ) (c c2 : Nat) (p : List Nat) :
    (e.ctrl.phase ≠ .idle → e.Transition a b c = { e with errors := e.errors + 1 }) ∧
    (e.ctrl.phase = .idle →
      (e.Transition a b c).ctrl.phase = .entering ∧
      (e.Transition a b c).Transition a2 b2 c2
        = { e.Transition a b c with errors := (e.Transition a b c).errors + 1 }) ∧
    (e.ctrl.phase = .entering ∨ e.ctrl.phase = .exiting → e.dispatchClick p = e) := by
  refine ⟨?_, ?_, ?_⟩
  · intro hni
    simp [Engine.Transition, hni]
  · intro hidle
    have hfirst : (e.Transition a b c).ctrl.phase = .entering := by
      simp [Engine.Transition, hidle]
    refine ⟨hfirst, ?_⟩
    simp [Engine.Transition, hidle]
  · intro hbusy
    have hni : ¬ (e.ctrl.phase = .idle) := by
      rcases hbusy with h | h <;> simp [h]
    simp [Engine.dispatchClick, hni]

/-- A concrete engine holding the two-node sample scene, idle. -/
def engineIdle : Engine :=
  ⟨sampleRoot, ⟨.idle, 0, 0, none⟩, 0, [], []⟩

/-- Witness for C6 at a concrete engine: starting one transition makes an
immediately following `Transition` fail with only an error report, and a
click dispatched during the entering phase is dropped entirely. -/
theorem c6_transition_exclusive_and_input_suppressed_witness :
    (engineIdle.Transition 1 1 9).Transition 1 1 8
      = { engineIdle.Transition 1 1 9 with
          errors := (engineIdle.Transition 1 1 9).errors + 1 } ∧
    (engineIdle.Transition 1 1 9).dispatchClick [0] = engineIdle.Transition 1 1 9 := by
  have h1 := (c6_transition_exclusive_and_input_suppressed engineIdle
    1 1 1 1 9 8 [0]).2.1 rfl
  have h2 := (c6_transition_exclusive_and_input_suppressed
    (engineIdle.Transition 1 1 9) 1 1 1 1 9 8 [0]).2.2 (Or.inl h1.1)
  exact ⟨h1.2, h2⟩

@[simp]
theorem children_withPaused (v : Bool) (n : SceneNode) :
    (SceneNode.withPaused v n).children = n.children := by
  cases n; rfl

@[simp]
theorem children_withDisabled (v : Bool) (n : SceneNode) :
    (SceneNode.withDisabled v n).children = n.children := by
  cases n; rfl

@[simp]
theorem children_withPos (x y : ℚ) (n : SceneNode) :
    (SceneNode.withPos x y n).children = n.children := by
  cases n; rfl

@[simp]
theorem deleted_withPaused (v : Bool) (n : SceneNode) :
    (SceneNode.withPaused v n).deleted = n.deleted := by
  cases n; rfl

@[simp]
theorem deleted_withHidden (v : Bool) (n : SceneNode) :
    (SceneNode.withHidden v n).deleted = n.deleted := by
  cases n; rfl

@[simp]
theorem deleted_withDisabled (v : Bool) (n : SceneNode) :
    (SceneNode.withDisabled v n).deleted = n.deleted := by
  cases n; rfl

@[simp]
theorem deleted_withPos (x y : ℚ) (n : SceneNode) :
    (SceneNode.withPos x y n).deleted = n.deleted := by
  cases n; rfl

/-- Modelled from the spec: an operation a caller can perform on a node
through its handle — the shared fluent surface of
`Viewport`/`Group`/`Sprite`/`Background`. -/
inductive NodeOp where
  | pauseOp
  | resumeOp
  | hideOp
  | showOp
  | disableOp
  | enableOp
  | deleteOp
  | moveOp (x y : ℚ)

/-- The node-local effect of an operation. -/
def applyNodeOp : NodeOp → SceneNode → SceneNode
  | .pauseOp => SceneNode.withPaused true
  | .resumeOp => SceneNode.withPaused false
  | .hideOp => SceneNode.withHidden true
  | .showOp => SceneNode.withHidden false
  | .disableOp => SceneNode.withDisabled true
  | .enableOp => SceneNode.withDisabled false
  | .deleteOp => SceneNode.withDeleted true
  | .moveOp x y => SceneNode.withPos x y

theorem applyNodeOp_children (op : NodeOp) (n : SceneNode) :
    (applyNodeOp op n).children = n.children := by
  cases op <;> simp [applyNodeOp]

theorem applyNodeOp_deleted_mono (op : NodeOp) (n : SceneNode)
    (h : n.deleted = true) : (applyNodeOp op n).deleted = true := by
  cases op <;> simp [applyNodeOp, h]

/-- Modelled from the spec: performing an operation on a node through its
handle — a no-op when the node is effectively deleted (operating on a
deleted node "is a no-op returning the same handle"), otherwise the
node-local update at the addressed path. -/
def applyAt (g : SceneNode) (p : List Nat) (op : NodeOp) : SceneNode :=
  if effDeletedAt g p = some true then g else modifyAt (applyNodeOp op) g p

/-- Apply a whole sequence of addressed operations, in order. -/
def applyOps (g : SceneNode) (ops : List (List Nat × NodeOp)) : SceneNode :=
  ops.foldl (fun h po => applyAt h po.1 po.2) g

theorem effDeleted_modifyAt_mono (f : SceneNode → SceneNode)
    (hf : ∀ n, (f n).children = n.children)
    (hmono : ∀ n, n.deleted = true → (f n).deleted = true) :
    ∀ (p q : List Nat) (g : SceneNode), effDeletedAt g p = some true →
      effDeletedAt (modifyAt f g q) p = some true := by
  intro p
  induction p with
  | nil =>
    intro q g h
    simp only [effDeletedAt, effFlagAt, Option.some.injEq] at h
    cases q with
    | nil =>
      simp only [effDeletedAt, modifyAt, effFlagAt, Option.some.injEq]
      exact hmono g h
    | cons j q2 =>
      simp only [effDeletedAt, modifyAt, effFlagAt, Option.some.injEq,
        deleted_withChildren]
      exact h
  | cons i p ih =>
    intro q g h
    simp only [effDeletedAt, effFlagAt] at h
    cases hc : g.children[i]? with
    | none => simp [hc] at h
    | some c =>
      simp only [hc] at h
      cases hb : effFlagAt SceneNode.deleted c p with
      | none => simp [hb] at h
      | some b =>
        simp only [hb, Option.map_some', Option.some.injEq] at h
        cases q with
        | nil =>
          simp only [effDeletedAt, modifyAt, effFlagAt, hf, hc, hb]
          rcases Bool.or_eq_true_iff.mp h with hroot | hsub
          · simp [hmono g hroot]
          · simp [hsub]
        | cons j q2 =>
          simp only [effDeletedAt, modifyAt, effFlagAt, children_withChildren,
            deleted_withChildren, updateChild_getElem]
          by_cases hij : j = i
          · subst hij
            simp only [if_pos rfl, hc, Option.map_some']
            rcases Bool.or_eq_true_iff.mp h with hroot | hsub
            · have hsome : (effFlagAt SceneNode.deleted (modifyAt f c q2) p).isSome
                  = true := by
                rw [effFlagAt_isSome, getNode_modifyAt_isSome f hf,
                  ← effFlagAt_isSome SceneNode.deleted, hb]
                rfl
              cases hb2 : effFlagAt SceneNode.deleted (modifyAt f c q2) p with
              | none => simp [hb2] at hsome
              | some b2 => simp [hb2, hroot]
            · subst hsub
              have := ih q2 c hb
              simp only [effDeletedAt] at this
              simp [this]
          · simp only [hij, if_false, hc, Option.map_some', hb]
            exact congrArg some h

theorem effDeleted_applyAt_mono (g : SceneNode) (p q : List Nat) (op : NodeOp)
    (h : effDeletedAt g p = some true) :
    effDeletedAt (applyAt g q op) p = some true := by
  unfold applyAt
  by_cases hg : effDeletedAt g q = some true
  · rw [if_pos hg]
    exact h
  · rw [if_neg hg]
    exact effDeleted_modifyAt_mono (applyNodeOp op) (applyNodeOp_children op)
      (applyNodeOp_deleted_mono op) p q g h

theorem applyAt_of_deleted (g : SceneNode) (p : List Nat) (op : NodeOp)
    (h : effDeletedAt g p = some true) : applyAt g p op = g := by
  unfold applyAt
  rw [if_pos h]

theorem effDeleted_applyOps (ops : List (List Nat × NodeOp)) :
    ∀ g : SceneNode, ∀ p : List Nat, effDeletedAt g p = some true →
      effDeletedAt (applyOps g ops) p = some true := by
  induction ops with
  | nil => intro g p h; exact h
  | cons po ops ih =>
    intro g p h
    exact ih (applyAt g po.1 po.2) p (effDeleted_applyAt_mono g p po.1 po.2 h)

/-- C9: after `Delete` on a node, every subsequent operation on that node is
a no-op leaving the scene unchanged; the node and all its descendants are
excluded from graph walks — unreachable, not rendered, not hit-testable,
receiving no clicks — and deletion is irreversible under any sequence of
further operations anywhere in the graph. -/
theorem c9_deleted_node_is_inert (g : SceneNode) (p : List Nat) (m : SceneNode)
    (hm : getNode g p = some m) :
    (∀ op : NodeOp, applyAt (applyAt g p .deleteOp) p op = applyAt g p .deleteOp) ∧
    (∀ r : List Nat,
      ¬ reachableAt (applyAt g p .deleteOp) (p ++ r) ∧
      ¬ renderedAt (applyAt g p .deleteOp) (p ++ r) ∧
      ¬ hitTestableAt (applyAt g p .deleteOp) (p ++ r) ∧
      clickTargetAt (applyAt g p .deleteOp) (p ++ r) = none) ∧
    (∀ ops : List (List Nat × NodeOp),
      effDeletedAt (applyOps (applyAt g p .deleteOp) ops) p = some true) := by
  have hdel : effDeletedAt (applyAt g p .deleteOp) p = some true := by
    unfold applyAt
    by_cases hg : effDeletedAt g p = some true
    · rw [if_pos hg]
      exact hg
    · rw [if_neg hg]
      have hget : getNode (modifyAt (applyNodeOp NodeOp.deleteOp) g p) p
          = some (SceneNode.withDeleted true m) := by
        rw [getNode_modifyAt_self, hm]
        rfl
      exact effFlagAt_of_own_flag SceneNode.deleted _ p _ hget (by simp)
  have hdescend : ∀ r : List Nat,
      effDeletedAt (applyAt g p .deleteOp) (p ++ r) ≠ some false := by
    intro r hcontra
    have := effFlagAt_false_prefix SceneNode.deleted _ p r hcontra
    rw [show effFlagAt SceneNode.deleted (applyAt g p .deleteOp) p
      = effDeletedAt (applyAt g p .deleteOp) p from rfl, hdel] at this
    simp at this
  refine ⟨?_, ?_, ?_⟩
  · intro op
    exact applyAt_of_deleted _ p op hdel
  · intro r
    have hr := hdescend r
    refine ⟨hr, fun hcon => hr hcon.1, fun hcon => hr hcon.1, ?_⟩
    rw [clickTargetAt, if_neg]
    rintro ⟨⟨hreach, -⟩, -⟩
    exact hr hreach
  · intro ops
    exact effDeleted_applyOps ops _ p hdel

/-- Witness for C9 at the concrete two-node scene: after deleting the child,
moving it changes nothing and it is no longer reachable. -/
theorem c9_deleted_node_is_inert_witness :
    applyAt (applyAt sampleRoot [0] .deleteOp) [0] (.moveOp 3 4)
      = applyAt sampleRoot [0] .deleteOp ∧
    ¬ reachableAt (applyAt sampleRoot [0] .deleteOp) ([0] ++ []) := by
  have h := c9_deleted_node_is_inert sampleRoot [0] sampleChild rfl
  exact ⟨h.1 (.moveOp 3 4), (h.2.1 []).1⟩

/-- The opaque JSON value type the persistence API exchanges; its structure
is irrelevant to the engine core. -/
inductive Json where
  | null

/-- The `Save` function with the return type exactly as declared at
`src/Engine/Api.ts` line 468: `declare function Save(name: string, data:
Json): void` — `void` modelled as `Unit`. The function's own doc comment
(`@returns {boolean} True if the data was saved, else, false.`), and the
specification, document a boolean result that this declared type cannot
carry. -/
def Save (name : String) (data : Json) : Unit :=
  ()

/-- C10 evaluated against the declaration: every call of the declared `Save`
returns the unique `void`/`Unit` value, so no call can report `true` or
`false` — the declared return type contradicts the documented boolean
result. -/
theorem c10_save_declared_void (name name2 : String) (data data2 : Json) :
    Save name data = () ∧ Save name data = Save name2 data2 :=
  ⟨rfl, rfl⟩

end SprigganTS
